import Mathlib

/-
Verification of the dotfiles provisioning scripts.

The development shallowly embeds the three Python scripts:
  * scripts/setup.py          (symlink reconciler, Brewfile step, step pipeline)
  * scripts/setup_mise.py     (marker-delimited text-block upsert, exit codes)
  * scripts/setup_astronvim.py (timestamped backup of the nvim config)

File contents are modelled as `List Char`; the filesystem as a partial map
from path strings to entries.  Machine behaviour of Python string methods
(`in`, `str.split(sep, 1)`, `str.lstrip`, `str.endswith`) is reproduced by
the executable functions below.
-/

/- ===================== generic string operations ===================== -/

-- `splitOnce sep text` finds the first occurrence of `sep` in `text` and
-- returns the part before and the part after it; `none` when `sep` does not
-- occur.  This simultaneously models Python's `sep in text`,
-- `text.split(sep, 1)[0]` and `text.split(sep, 1)[-1]`.
def splitOnce (sep : List Char) : List Char → Option (List Char × List Char)
  | [] => if sep.isPrefixOf ([] : List Char) then some ([], []) else none
  | c :: t =>
    if sep.isPrefixOf (c :: t) then some ([], (c :: t).drop sep.length)
    else
      match splitOnce sep t with
      | some (p, q) => some (c :: p, q)
      | none => none

-- Python `text.split(sep, 1)[0]`.
def splitBefore (sep text : List Char) : List Char :=
  match splitOnce sep text with
  | some (p, _) => p
  | none => text

-- Python `text.split(sep, 1)[-1]`.
def splitAfter (sep text : List Char) : List Char :=
  match splitOnce sep text with
  | some (_, q) => q
  | none => text

-- Python `text.lstrip("\n")`.
def lstripNl : List Char → List Char
  | [] => []
  | c :: t => if c = '\n' then lstripNl t else c :: t

-- Python `text.endswith("\n")`.
def endsWithNl (l : List Char) : Bool := l.getLast? == some '\n'

-- `sep` occurs as a contiguous substring of `text`.
def Occurs (sep text : List Char) : Prop := ∃ p q, text = p ++ sep ++ q

-- `sep` has no non-trivial border (no proper, non-empty prefix that is also
-- a suffix).  Used to locate first occurrences inside concatenations.
def NoBorder (sep : List Char) : Prop :=
  ∀ k, k < sep.length → 0 < k → sep.take k ≠ sep.drop (sep.length - k)

-- Python `needle in hay` on strings (setup.py line 280).
def str_contains (needle hay : String) : Bool :=
  (splitOnce needle.toList hay.toList).isSome

/- ===================== setup_mise.py, lines 21-24 ===================== -/

def MISE_BLOCK_BEGIN : List Char :=
  "# >>> MISE INIT - managed by setup_mise.py".toList

def MISE_BLOCK_END : List Char :=
  "# <<< MISE INIT - managed by setup_mise.py".toList

-- The body lines of the managed block, i.e. what stands between the two
-- markers in `MISE_BLOCK` (after the newline that follows the begin marker).
def miseBodyTail : List Char :=
  "if type -q mise\n    eval (mise env fish)\nend\n".toList

def miseBody : List Char := '\n' :: miseBodyTail

-- MISE_BLOCK = f"{BEGIN}\nif type -q mise\n    eval (mise env fish)\nend\n{END}\n"
def MISE_BLOCK : List Char :=
  MISE_BLOCK_BEGIN ++ miseBody ++ MISE_BLOCK_END ++ ['\n']

/-
setup_mise.py lines 92-113, `update_fish_config`.
The argument is the current content of the fish config file
(`none` = the file does not exist); the result is the content written back.

  * file missing                      -> write exactly MISE_BLOCK      (93-97)
  * both markers present              -> pre + MISE_BLOCK + post.lstrip("\n")
                                         with pre  = text.split(BEGIN,1)[0],
                                              post = text.split(END,1)[-1]  (99-106)
  * otherwise                         -> append: ensure trailing "\n",
                                         then write "\n" + MISE_BLOCK  (107-113)
-/
def update_fish_config : Option (List Char) → List Char
  | none => MISE_BLOCK
  | some text =>
    if (splitOnce MISE_BLOCK_BEGIN text).isSome && (splitOnce MISE_BLOCK_END text).isSome then
      splitBefore MISE_BLOCK_BEGIN text ++ MISE_BLOCK
        ++ lstripNl (splitAfter MISE_BLOCK_END text)
    else
      text ++ (if endsWithNl text then [] else ['\n']) ++ '\n' :: MISE_BLOCK

/-
setup_mise.py `main`, lines 128-158, exit-code behaviour.
`yes` is the `--yes` flag, `confirmY` whether the interactive answer was "y",
`mise_ok` whether `mise` is on PATH, `verify_ok` the result of
`verify_bins_in_fish`.  `install_runtimes` and `update_fish_config` never
change the exit code.  Falling off the end of `main` exits the process with 0.
-/
def setup_mise_main (yes confirmY mise_ok verify_ok : Bool) : Nat :=
  if !yes && !confirmY then 0        -- "Aborting." then sys.exit(0), line 140
  else if !mise_ok then 1            -- sys.exit(1), line 144
  else if !verify_ok then 2          -- sys.exit(2), line 156
  else 0

/- ===================== filesystem model for setup.py ===================== -/

-- A filesystem entry: a regular file, a directory or a symlink.  The payload
-- string is an opaque tag for the content, used to state preservation.
inductive Entry where
  | file (data : String)
  | dir (data : String)
  | link (target : String)
deriving DecidableEq

-- A filesystem: a partial map from path strings to entries.  Existence checks
-- `Path.exists()` / `Path.is_symlink()` are modelled as presence of an entry
-- (symlink-chain resolution of `exists()` is abstracted away; no claim
-- depends on dangling-symlink occupants).  Parent directories are assumed
-- present and are not tracked.
abbrev FS := String → Option Entry

-- Writing (or deleting, with `none`) the entry at one path.
def fsSet (fs : FS) (p : String) (v : Option Entry) : FS :=
  fun q => if q = p then v else fs q

-- setup.py line 227: `backup_dst = Path(str(dst) + ".backup")`.
def backupPath (p : String) : String := p ++ ".backup"

-- Per-mapping outcome of the reconciler loop body (the printed status).
inductive LinkOutcome where
  | missingSource    -- "Source not found", line 216, `continue`
  | linked           -- symlink (re)created, target absent or was a symlink
  | backedUp         -- "Backed up existing config", line 230
  | alreadyBackedUp  -- "Config already backed up", line 232
  | failed           -- exception caught at line 242, success = False
deriving DecidableEq

/-
setup.py lines 212-244: body of the `for src_rel, dst in symlinks.items()`
loop, for one mapping with source path `s` and destination path `d`.

  * source missing: warn and `continue`                      (215-217)
  * destination is a symlink: unlink it, recreate            (222-224, 239)
  * destination is foreign (file/dir):
      - no backup yet: os.rename(dst, dst+".backup")         (228-230)
      - backup exists: dst.unlink()                          (233)
        `Path.unlink()` raises on a directory, so a directory
        occupant makes the iteration fail with no change.
  * then os.symlink(resolved source, dst)                    (239); the
    symlink target is modelled as the source path `s`.
-/
def create_symlink_step (fs : FS) (s d : String) : FS × LinkOutcome :=
  match fs s with
  | none => (fs, LinkOutcome.missingSource)
  | some _ =>
    match fs d with
    | none => (fsSet fs d (some (Entry.link s)), LinkOutcome.linked)
    | some (Entry.link _) => (fsSet fs d (some (Entry.link s)), LinkOutcome.linked)
    | some (Entry.file a) =>
      if (fs (backupPath d)).isSome then
        (fsSet fs d (some (Entry.link s)), LinkOutcome.alreadyBackedUp)
      else
        (fsSet (fsSet fs (backupPath d) (some (Entry.file a))) d
          (some (Entry.link s)), LinkOutcome.backedUp)
    | some (Entry.dir a) =>
      if (fs (backupPath d)).isSome then
        (fs, LinkOutcome.failed)
      else
        (fsSet (fsSet fs (backupPath d) (some (Entry.dir a))) d
          (some (Entry.link s)), LinkOutcome.backedUp)

-- Result of the whole reconciler: final filesystem, per-mapping outcomes in
-- order, and the aggregate `success` flag returned at line 246.
structure BatchResult where
  fs : FS
  outcomes : List LinkOutcome
  ok : Bool

/-
setup.py lines 188-246, `create_symlinks`, iterating over an ordered list of
(source, destination) mappings.  `success` starts True and is set to False
only when an iteration raises (the `except` at 242); a missing source skips
the mapping without touching `success`.
-/
def create_symlinks : FS → List (String × String) → BatchResult
  | fs, [] => ⟨fs, [], true⟩
  | fs, (s, d) :: rest =>
    let r := create_symlink_step fs s d
    let b := create_symlinks r.1 rest
    ⟨b.fs, r.2 :: b.outcomes,
      (if r.2 = LinkOutcome.failed then false else true) && b.ok⟩

-- n successive reconciliation runs of the single mapping (s, d).
def runs (s d : String) : Nat → FS → FS
  | 0, fs => fs
  | n + 1, fs => runs s d n (create_symlink_step fs s d).1

/-
setup.py lines 249-290, `install_brewfile`.  `brewfile_present` models
`brewfile_path.exists()`; `run_result` is the (exit code, combined output) of
`brew bundle install`, `none` when executing it raises an exception.
-/
def install_brewfile (brewfile_present : Bool) (run_result : Option (Nat × String)) : Bool :=
  if !brewfile_present then false                     -- warn + return False, 261-263
  else
    match run_result with
    | none => false                                   -- except: return False, 288-290
    | some (code, out) =>
      if code = 0 then true                           -- 274-276
      else if str_contains "already satisfied" out
           || str_contains "is already installed" out then true   -- 280-282
      else true                                       -- "Still consider this a success", 286

/- ===================== setup.py main, lines 382-437 ===================== -/

-- Outcome of one run of the hardcoded step pipeline: the names of the step
-- functions that were invoked (in order), the steps whose failure was
-- reported with a WARNING while the run continued, and the process exit code.
structure RunOutcome where
  executed : List String
  degraded : List String
  exitCode : Nat
deriving DecidableEq

/-
The seven booleans are the results of the seven step functions.  Steps 1-3
(`install_xcode_clt`, `install_homebrew`, `create_config_structure`) are
required: on failure main returns 1 at once (lines 391-407).  Steps 4-7 are
attempted unconditionally; failures of `create_symlinks` / `install_brewfile`
print a "continuing" warning (413, 419), `setup_fish_shell` and
`verify_installation` print their own warnings and their results are
discarded (424, 429).  main then returns 0 (line 437): the verification
result never influences the exit code.
-/
def setup_main (clt brew cfg links brewf fish verify : Bool) : RunOutcome :=
  if !clt then ⟨["install_xcode_clt"], [], 1⟩
  else if !brew then ⟨["install_xcode_clt", "install_homebrew"], [], 1⟩
  else if !cfg then
    ⟨["install_xcode_clt", "install_homebrew", "create_config_structure"], [], 1⟩
  else
    ⟨["install_xcode_clt", "install_homebrew", "create_config_structure",
      "create_symlinks", "install_brewfile", "setup_fish_shell",
      "verify_installation"],
      (if !links then ["create_symlinks"] else [])
        ++ (if !brewf then ["install_brewfile"] else [])
        ++ (if !fish then ["setup_fish_shell"] else [])
        ++ (if !verify then ["verify_installation"] else []),
      0⟩

/- ===================== setup_astronvim.py ===================== -/

-- setup_astronvim.py line 40: `nvim.with_name(nvim.name + f".backup.{ts}")`.
def nvim_backup_path (nvim ts : String) : String := nvim ++ ".backup." ++ ts

-- setup_astronvim.py lines 37-42, `backup_existing`: if the nvim config
-- path exists, rename it to the timestamped backup path.
def backup_existing (fs : FS) (nvim ts : String) : FS :=
  match fs nvim with
  | some e => fsSet (fsSet fs (nvim_backup_path nvim ts) (some e)) nvim none
  | none => fs

-- One run of setup_astronvim.py main (lines 85-87): back up the existing
-- nvim config, then `git clone` AstroNvim into the nvim path (line 45-48).
-- `install_user_config` only copies files inside the nvim tree and is not
-- modelled path-by-path.
def astro_run (fs : FS) (nvim ts : String) : FS :=
  fsSet (backup_existing fs nvim ts) nvim (some (Entry.dir "AstroNvim"))

-- Concrete filesystems and file contents used in closed witnesses and
-- counterexamples.
def astro_fs0 : FS := fsSet (fun _ => none) "nvim" (some (Entry.dir "user-config"))

def c1fs : FS :=
  fsSet (fsSet (fun _ => none) "repo/ghostty" (some (Entry.dir "src")))
    "cfg/ghostty" (some (Entry.dir "old"))

def c2fs_dir : FS :=
  fsSet (fsSet (fsSet (fun _ => none) "repo/fish" (some (Entry.dir "src")))
      "home/fish" (some (Entry.dir "foreign")))
    (backupPath "home/fish") (some (Entry.file "oldbackup"))

def c2fs_file : FS :=
  fsSet (fsSet (fsSet (fun _ => none) "repo/starship" (some (Entry.dir "src")))
      "home/starship" (some (Entry.file "foreign")))
    (backupPath "home/starship") (some (Entry.file "oldbackup"))

def c6text : List Char :=
  ("set -x\n" ++ "# >>> MISE INIT - managed by setup_mise.py" ++ "\nold body\n"
    ++ "# <<< MISE INIT - managed by setup_mise.py" ++ "\n\n# user settings\n").toList

/- ===================== lemmas: basic list facts ===================== -/

lemma take_len_append : ∀ (a b : List Char), (a ++ b).take a.length = a := by
  intro a b
  induction a with
  | nil => rfl
  | cons x a ih => simp [ih]

lemma drop_len_append : ∀ (a b : List Char), (a ++ b).drop a.length = b := by
  intro a b
  induction a with
  | nil => rfl
  | cons x a ih => simp [ih]

lemma shared_left :
    ∀ (a b ta tb : List Char), a ++ ta = b ++ tb → a.length ≤ b.length →
      ∃ w, a ++ w = b := by
  intro a
  induction a with
  | nil => intro b ta tb _ _; exact ⟨b, rfl⟩
  | cons x a ih =>
    intro b ta tb h hl
    cases b with
    | nil => simp at hl
    | cons y b' =>
      simp only [List.cons_append, List.cons.injEq] at h
      obtain ⟨hxy, h2⟩ := h
      obtain ⟨w, hw⟩ := ih b' ta tb h2 (by simpa using hl)
      exact ⟨w, by simp [hxy, ← hw]⟩

lemma isPrefixOf_iff_exists : ∀ (a l : List Char), a.isPrefixOf l = true ↔ ∃ t, l = a ++ t := by
  intro a
  induction a with
  | nil => intro l; simp [List.isPrefixOf]
  | cons x a ih =>
    intro l
    cases l with
    | nil => simp [List.isPrefixOf]
    | cons y l' =>
      simp only [List.isPrefixOf, Bool.and_eq_true, beq_iff_eq]
      constructor
      · rintro ⟨rfl, h⟩
        obtain ⟨t, rfl⟩ := (ih l').mp h
        exact ⟨t, rfl⟩
      · rintro ⟨t, ht⟩
        simp only [List.cons_append, List.cons.injEq] at ht
        obtain ⟨rfl, h2⟩ := ht
        exact ⟨rfl, (ih l').mpr ⟨t, h2⟩⟩

/- ===================== lemmas: occurrence of a substring ===================== -/

lemma occurs_nil {sep : List Char} (h : Occurs sep []) : sep = [] := by
  obtain ⟨p, q, hpq⟩ := h
  cases p with
  | nil =>
    cases sep with
    | nil => rfl
    | cons c t => simp at hpq
  | cons c t => simp at hpq

lemma occurs_cons {sep t : List Char} (c : Char) (h : Occurs sep t) : Occurs sep (c :: t) := by
  obtain ⟨p, q, rfl⟩ := h
  exact ⟨c :: p, q, rfl⟩

lemma occurs_append_right {sep a : List Char} (b : List Char) (h : Occurs sep a) :
    Occurs sep (a ++ b) := by
  obtain ⟨p, q, rfl⟩ := h
  exact ⟨p, q ++ b, by simp⟩

lemma occurs_append_left {sep b : List Char} (a : List Char) (h : Occurs sep b) :
    Occurs sep (a ++ b) := by
  obtain ⟨p, q, rfl⟩ := h
  exact ⟨a ++ p, q, by simp⟩

-- A substring free of the character `c` occurs in `a ++ c :: d` exactly when
-- it occurs in `a` or in `d`: no occurrence can straddle the `c`.
lemma occurs_middle_iff {sep : List Char} {c : Char} (hc : c ∉ sep) (a d : List Char) :
    Occurs sep (a ++ c :: d) ↔ Occurs sep a ∨ Occurs sep d := by
  constructor
  · rintro ⟨p, q, h⟩
    rcases Nat.lt_or_ge a.length p.length with hlt | hge
    · right
      have h' : (a ++ [c]) ++ d = p ++ (sep ++ q) := by simpa [List.append_assoc] using h
      obtain ⟨w, hw⟩ := shared_left (a ++ [c]) p d (sep ++ q) h'
        (by simp [List.length_append]; omega)
      have h2 : a ++ (c :: d) = a ++ ([c] ++ (w ++ (sep ++ q))) := by
        rw [← hw] at h
        simpa [List.append_assoc] using h
      have h3 := List.append_cancel_left h2
      have h4 : d = w ++ (sep ++ q) := by simpa using h3
      exact ⟨w, q, by simp [h4, List.append_assoc]⟩
    · rcases Nat.lt_or_ge a.length (p.length + sep.length) with hmid | hbig
      · exfalso
        obtain ⟨w, hw⟩ := shared_left p a (sep ++ q) (c :: d)
          (by simpa [List.append_assoc] using h.symm) hge
        rw [← hw] at h
        have h1 : p ++ (w ++ c :: d) = p ++ (sep ++ q) := by
          simpa [List.append_assoc] using h
        have h2 : w ++ c :: d = sep ++ q := List.append_cancel_left h1
        have hwlen : w.length < sep.length := by
          have := congrArg List.length hw
          simp [List.length_append] at this
          omega
        obtain ⟨u, hu⟩ := shared_left w sep (c :: d) q h2 (le_of_lt hwlen)
        cases u with
        | nil =>
          have := congrArg List.length hu
          simp at this
          omega
        | cons c' u' =>
          rw [← hu] at h2
          have h2' : w ++ (c :: d) = w ++ (c' :: (u' ++ q)) := by
            simpa [List.append_assoc] using h2
          have h3 : c :: d = c' :: (u' ++ q) := List.append_cancel_left h2'
          have hcc : c = c' := by
            simpa using congrArg List.head? h3
          apply hc
          rw [← hu, hcc]
          exact List.mem_append_right w (List.mem_cons_self c' u')
      · left
        obtain ⟨w, hw⟩ := shared_left (p ++ sep) a q (c :: d)
          (by simpa [List.append_assoc] using h.symm)
          (by simp [List.length_append]; omega)
        exact ⟨p, w, by rw [← hw]⟩
  · rintro (⟨p, q, rfl⟩ | ⟨p, q, rfl⟩)
    · exact ⟨p, q ++ c :: d, by simp [List.append_assoc]⟩
    · exact ⟨a ++ c :: p, q, by simp [List.append_assoc]⟩

lemma not_occurs_snoc {sep : List Char} {c : Char} (hc : c ∉ sep) (hsep : sep ≠ [])
    {a : List Char} (h : ¬ Occurs sep a) : ¬ Occurs sep (a ++ [c]) := by
  intro ho
  rcases (occurs_middle_iff hc a []).mp (by simpa using ho) with h1 | h2
  · exact h h1
  · exact hsep (occurs_nil h2)

/- ===================== lemmas: splitOnce finds the first occurrence ===================== -/

lemma splitOnce_some_spec {sep : List Char} (hsep : sep ≠ []) :
    ∀ {text p q : List Char}, splitOnce sep text = some (p, q) →
      text = p ++ sep ++ q ∧ ¬ Occurs sep p := by
  intro text
  induction text with
  | nil =>
    intro p q h
    cases sep with
    | nil => exact absurd rfl hsep
    | cons c t => simp [splitOnce, List.isPrefixOf] at h
  | cons c t ih =>
    intro p q h
    by_cases hpf : sep.isPrefixOf (c :: t) = true
    · simp only [splitOnce] at h
      rw [if_pos hpf] at h
      rw [Option.some.injEq, Prod.mk.injEq] at h
      obtain ⟨hp, hq⟩ := h
      subst hp
      subst hq
      obtain ⟨r, hr⟩ := (isPrefixOf_iff_exists sep (c :: t)).mp hpf
      constructor
      · rw [hr, drop_len_append]
        simp
      · intro ho
        exact hsep (occurs_nil ho)
    · simp only [splitOnce] at h
      rw [if_neg hpf] at h
      cases hso : splitOnce sep t with
      | none => rw [hso] at h; exact absurd h (by simp)
      | some pq =>
        obtain ⟨p', q'⟩ := pq
        rw [hso] at h
        have h2 : some ((c :: p', q') : List Char × List Char) = some (p, q) := h
        rw [Option.some.injEq, Prod.mk.injEq] at h2
        obtain ⟨hp, hq⟩ := h2
        subst hp
        subst hq
        obtain ⟨ht, hnp⟩ := ih hso
        constructor
        · simp [ht]
        · rintro ⟨x, y, hxy⟩
          cases x with
          | nil =>
            apply hpf
            apply (isPrefixOf_iff_exists sep (c :: t)).mpr
            have hcp : c :: p' = sep ++ y := by simpa using hxy
            refine ⟨y ++ (sep ++ q'), ?_⟩
            rw [ht]
            rw [show c :: (p' ++ sep ++ q') = (c :: p') ++ (sep ++ q') by
              simp [List.append_assoc]]
            rw [hcp]
            simp [List.append_assoc]
          | cons z x' =>
            have hx : c = z ∧ p' = x' ++ sep ++ y := by simpa using hxy
            exact hnp ⟨x', y, hx.2⟩

lemma splitOnce_none_not_occurs :
    ∀ {sep text : List Char}, splitOnce sep text = none → ¬ Occurs sep text := by
  intro sep text
  induction text with
  | nil =>
    intro h ho
    have hsep := occurs_nil ho
    subst hsep
    simp [splitOnce, List.isPrefixOf] at h
  | cons c t ih =>
    intro h ho
    by_cases hpf : sep.isPrefixOf (c :: t) = true
    · simp only [splitOnce] at h
      rw [if_pos hpf] at h
      exact absurd h (by simp)
    · simp only [splitOnce] at h
      rw [if_neg hpf] at h
      cases hso : splitOnce sep t with
      | some pq =>
        obtain ⟨p', q'⟩ := pq
        rw [hso] at h
        exact absurd h (by simp)
      | none =>
        obtain ⟨p, q, hpq⟩ := ho
        cases p with
        | nil =>
          apply hpf
          apply (isPrefixOf_iff_exists sep (c :: t)).mpr
          exact ⟨q, by simpa using hpq⟩
        | cons z p' =>
          have hx : c = z ∧ t = p' ++ sep ++ q := by simpa using hpq
          exact ih hso ⟨p', q, hx.2⟩

-- For a border-free separator, `splitOnce` applied to `pre ++ sep ++ t`
-- with `sep` not occurring in `pre` splits exactly at the visible occurrence.
lemma splitOnce_append_first {sep : List Char} (hnb : NoBorder sep) (hsep : sep ≠ []) :
    ∀ (pre t : List Char), ¬ Occurs sep pre →
      splitOnce sep (pre ++ (sep ++ t)) = some (pre, t) := by
  intro pre
  induction pre with
  | nil =>
    intro t _
    obtain ⟨c, s', rfl⟩ : ∃ c s', sep = c :: s' := by
      cases sep with
      | nil => exact absurd rfl hsep
      | cons c s' => exact ⟨c, s', rfl⟩
    have hpf : (c :: s').isPrefixOf (c :: (s' ++ t)) = true :=
      (isPrefixOf_iff_exists _ _).mpr ⟨t, by simp⟩
    show splitOnce (c :: s') ([] ++ ((c :: s') ++ t)) = some ([], t)
    rw [show ([] ++ ((c :: s') ++ t) : List Char) = c :: (s' ++ t) from by simp]
    simp only [splitOnce]
    split
    · rw [Option.some.injEq, Prod.mk.injEq]
      refine ⟨rfl, ?_⟩
      simp only [List.length_cons, List.drop_succ_cons]
      exact drop_len_append s' t
    · next hneg => exact absurd hpf hneg
  | cons x pre' ih =>
    intro t hno
    have hnpf : ¬ sep.isPrefixOf (x :: (pre' ++ (sep ++ t))) = true := by
      intro hpf
      obtain ⟨r, hr⟩ := (isPrefixOf_iff_exists _ _).mp hpf
      rcases Nat.lt_or_ge (x :: pre').length sep.length with hlt | hge
      · have h1 : (x :: pre') ++ (sep ++ t) = sep ++ r := by simpa using hr
        obtain ⟨X, hX⟩ := shared_left (x :: pre') sep (sep ++ t) r h1 (le_of_lt hlt)
        have hXlen : pre'.length + 1 + X.length = sep.length := by
          have h' := congrArg List.length hX
          simp [List.length_append, List.length_cons] at h'
          omega
        have hltlen : pre'.length + 1 < sep.length := by
          simpa [List.length_cons] using hlt
        have h2 : (x :: pre') ++ (sep ++ t) = (x :: pre') ++ (X ++ r) := by
          rw [h1, ← hX, List.append_assoc]
        have h3 : sep ++ t = X ++ r := List.append_cancel_left h2
        obtain ⟨Y, hY⟩ := shared_left X sep r t h3.symm (by omega)
        have htake : sep.take X.length = X := by rw [← hY, take_len_append]
        have hm : sep.length - X.length = (x :: pre').length := by
          simp only [List.length_cons]
          omega
        have hdrop : sep.drop (sep.length - X.length) = X := by
          rw [hm, ← hX, drop_len_append]
        have hX0 : 0 < X.length := by omega
        exact hnb X.length (by omega) hX0 (htake.trans hdrop.symm)
      · have h1 : sep ++ r = (x :: pre') ++ (sep ++ t) := by simpa using hr.symm
        obtain ⟨w, hw⟩ := shared_left sep (x :: pre') r (sep ++ t) h1 hge
        exact hno ⟨[], w, by simp [← hw]⟩
    have hno' : ¬ Occurs sep pre' := by
      rintro ⟨p, q, hp⟩
      exact hno ⟨x :: p, q, by simp [hp]⟩
    show splitOnce sep (x :: (pre' ++ (sep ++ t))) = some (x :: pre', t)
    simp only [splitOnce]
    rw [if_neg hnpf]
    rw [ih t hno']

/- ===================== lemmas: concrete facts about the markers ===================== -/

lemma nb_begin : NoBorder MISE_BLOCK_BEGIN := by unfold NoBorder; decide

lemma nb_end : NoBorder MISE_BLOCK_END := by unfold NoBorder; decide

lemma nl_not_in_begin : '\n' ∉ MISE_BLOCK_BEGIN := by decide

lemma nl_not_in_end : '\n' ∉ MISE_BLOCK_END := by decide

lemma begin_ne_nil : MISE_BLOCK_BEGIN ≠ [] := by decide

lemma end_ne_nil : MISE_BLOCK_END ≠ [] := by decide

lemma no_end_in_bodyTail : ¬ Occurs MISE_BLOCK_END miseBodyTail :=
  splitOnce_none_not_occurs (by decide)

lemma no_end_in_begin : ¬ Occurs MISE_BLOCK_END MISE_BLOCK_BEGIN :=
  splitOnce_none_not_occurs (by decide)

/- ===================== lemmas: lstrip and trailing newline ===================== -/

lemma lstripNl_decomp : ∀ l : List Char, ∃ k, l = List.replicate k '\n' ++ lstripNl l := by
  intro l
  induction l with
  | nil => exact ⟨0, rfl⟩
  | cons c t ih =>
    by_cases hc : c = '\n'
    · obtain ⟨k, hk⟩ := ih
      subst hc
      refine ⟨k + 1, ?_⟩
      rw [lstripNl]
      simp only [if_pos rfl, List.replicate_succ, List.cons_append]
      exact congrArg _ hk
    · exact ⟨0, by simp [lstripNl, hc]⟩

lemma lstripNl_head : ∀ l : List Char, (lstripNl l).head? ≠ some '\n' := by
  intro l
  induction l with
  | nil => simp [lstripNl]
  | cons c t ih =>
    by_cases hc : c = '\n'
    · simpa [lstripNl, hc] using ih
    · simp [lstripNl, hc]

lemma lstripNl_cons_nl (l : List Char) : lstripNl ('\n' :: l) = lstripNl l := by
  simp [lstripNl]

lemma lstripNl_idem (l : List Char) : lstripNl (lstripNl l) = lstripNl l := by
  cases h : lstripNl l with
  | nil => simp [lstripNl]
  | cons c t =>
    have hc : c ≠ '\n' := by
      have hh := lstripNl_head l
      rw [h] at hh
      simpa using hh
    simp [lstripNl, hc]

lemma endsWithNl_true_iff (l : List Char) : endsWithNl l = true ↔ l.getLast? = some '\n' := by
  simp [endsWithNl]

lemma endsWithNl_false_getLast (l : List Char) (h : endsWithNl l = false) :
    l.getLast? ≠ some '\n' := by
  intro hl
  rw [← endsWithNl_true_iff] at hl
  rw [h] at hl
  exact Bool.false_ne_true hl

/- ===================== lemmas: locating the managed block ===================== -/

lemma splitOnce_begin_block (pre tail : List Char) (h : ¬ Occurs MISE_BLOCK_BEGIN pre) :
    splitOnce MISE_BLOCK_BEGIN (pre ++ MISE_BLOCK ++ tail)
      = some (pre, miseBody ++ MISE_BLOCK_END ++ '\n' :: tail) := by
  have hshape : pre ++ MISE_BLOCK ++ tail
      = pre ++ (MISE_BLOCK_BEGIN ++ (miseBody ++ MISE_BLOCK_END ++ '\n' :: tail)) := by
    simp [MISE_BLOCK, List.append_assoc]
  rw [hshape]
  exact splitOnce_append_first nb_begin begin_ne_nil pre _ h

lemma splitOnce_end_block (pre tail : List Char)
    (h : ¬ Occurs MISE_BLOCK_END (pre ++ MISE_BLOCK_BEGIN)) :
    splitOnce MISE_BLOCK_END (pre ++ MISE_BLOCK ++ tail)
      = some (pre ++ MISE_BLOCK_BEGIN ++ miseBody, '\n' :: tail) := by
  have hno : ¬ Occurs MISE_BLOCK_END ((pre ++ MISE_BLOCK_BEGIN) ++ '\n' :: miseBodyTail) := by
    rw [occurs_middle_iff nl_not_in_end]
    rintro (h1 | h2)
    · exact h h1
    · exact no_end_in_bodyTail h2
  have hshape : pre ++ MISE_BLOCK ++ tail
      = ((pre ++ MISE_BLOCK_BEGIN) ++ '\n' :: miseBodyTail)
          ++ (MISE_BLOCK_END ++ '\n' :: tail) := by
    simp [MISE_BLOCK, miseBody, List.append_assoc]
  rw [hshape]
  have hres := splitOnce_append_first nb_end end_ne_nil
    ((pre ++ MISE_BLOCK_BEGIN) ++ '\n' :: miseBodyTail) ('\n' :: tail) hno
  rw [hres]
  rw [Option.some.injEq, Prod.mk.injEq]
  exact ⟨by simp [miseBody, List.append_assoc], rfl⟩

/- ===================== lemmas: filesystem updates ===================== -/

lemma fsSet_at (fs : FS) (p : String) (v : Option Entry) : fsSet fs p v p = v := by
  simp [fsSet]

lemma fsSet_other (fs : FS) (p q : String) (v : Option Entry) (h : q ≠ p) :
    fsSet fs p v q = fs q := by
  simp [fsSet, h]

lemma fsSet_self (fs : FS) (p : String) (v : Option Entry) (h : fs p = v) :
    fsSet fs p v = fs := by
  funext q
  by_cases hq : q = p
  · subst hq
    simp [fsSet, h]
  · simp [fsSet, hq]

lemma backupPath_ne (d : String) : backupPath d ≠ d := by
  intro h
  have hlen := congrArg String.length h
  rw [backupPath, String.length_append] at hlen
  have h7 : (".backup" : String).length = 7 := rfl
  omega

/- ===================== lemmas: unfolding update_fish_config ===================== -/

lemma update_both (text pre rest preE post : List Char)
    (h1 : splitOnce MISE_BLOCK_BEGIN text = some (pre, rest))
    (h2 : splitOnce MISE_BLOCK_END text = some (preE, post)) :
    update_fish_config (some text) = pre ++ MISE_BLOCK ++ lstripNl post := by
  simp [update_fish_config, splitBefore, splitAfter, h1, h2]

lemma update_noMarkers (text : List Char)
    (hb : splitOnce MISE_BLOCK_BEGIN text = none)
    (he : splitOnce MISE_BLOCK_END text = none) :
    update_fish_config (some text)
      = text ++ (if endsWithNl text then [] else ['\n']) ++ '\n' :: MISE_BLOCK := by
  simp [update_fish_config, hb, he]

/- ===================== claims about the text-block upsert ===================== -/

/-- Claim C3, corrected.  The text-block upsert is idempotent on every host
file in which neither marker occurs, and on every host file in which both
markers occur with the first end-marker occurrence after the first
begin-marker occurrence.  (As originally stated — for every host file — the
claim is false: see the counterexample with a file containing only the begin
marker.) -/
theorem c3_amended (text : List Char)
    (h : (splitOnce MISE_BLOCK_BEGIN text = none ∧ splitOnce MISE_BLOCK_END text = none)
       ∨ (∃ pre rest mid post,
            splitOnce MISE_BLOCK_BEGIN text = some (pre, rest)
            ∧ splitOnce MISE_BLOCK_END text = some (pre ++ MISE_BLOCK_BEGIN ++ mid, post))) :
    update_fish_config (some (update_fish_config (some text)))
      = update_fish_config (some text) := by
  rcases h with ⟨hb, he⟩ | ⟨pre, rest, mid, post, hb, he⟩
  · have hnb : ¬ Occurs MISE_BLOCK_BEGIN text := splitOnce_none_not_occurs hb
    have hne : ¬ Occurs MISE_BLOCK_END text := splitOnce_none_not_occurs he
    have hu1 := update_noMarkers text hb he
    set T := text ++ (if endsWithNl text then [] else ['\n']) with hT
    have hTb : ¬ Occurs MISE_BLOCK_BEGIN T := by
      rw [hT]
      cases hE : endsWithNl text
      · simp only [Bool.false_eq_true, if_neg]
        exact not_occurs_snoc nl_not_in_begin begin_ne_nil hnb
      · simpa using hnb
    have hTe : ¬ Occurs MISE_BLOCK_END T := by
      rw [hT]
      cases hE : endsWithNl text
      · simp only [Bool.false_eq_true, if_neg]
        exact not_occurs_snoc nl_not_in_end end_ne_nil hne
      · simpa using hne
    have hTb' : ¬ Occurs MISE_BLOCK_BEGIN (T ++ ['\n']) :=
      not_occurs_snoc nl_not_in_begin begin_ne_nil hTb
    have hTe' : ¬ Occurs MISE_BLOCK_END ((T ++ ['\n']) ++ MISE_BLOCK_BEGIN) := by
      rw [show (T ++ ['\n']) ++ MISE_BLOCK_BEGIN = T ++ '\n' :: MISE_BLOCK_BEGIN by simp]
      rw [occurs_middle_iff nl_not_in_end]
      rintro (h1 | h2)
      · exact hTe h1
      · exact no_end_in_begin h2
    have hs1 := splitOnce_begin_block (T ++ ['\n']) [] hTb'
    have hs2 := splitOnce_end_block (T ++ ['\n']) [] hTe'
    rw [hu1]
    rw [show T ++ '\n' :: MISE_BLOCK = (T ++ ['\n']) ++ MISE_BLOCK ++ [] by simp]
    rw [update_both _ _ _ _ _ hs1 hs2]
    simp [lstripNl]
  · obtain ⟨htext1, hpreb⟩ := splitOnce_some_spec begin_ne_nil hb
    obtain ⟨htext2, hpreE⟩ := splitOnce_some_spec end_ne_nil he
    have hpreB_e : ¬ Occurs MISE_BLOCK_END (pre ++ MISE_BLOCK_BEGIN) := by
      intro ho
      exact hpreE (occurs_append_right mid ho)
    have hu1 := update_both text pre rest _ post hb he
    have hs1 := splitOnce_begin_block pre (lstripNl post) hpreb
    have hs2 := splitOnce_end_block pre (lstripNl post) hpreB_e
    rw [hu1]
    rw [update_both _ _ _ _ _ hs1 hs2]
    rw [lstripNl_cons_nl, lstripNl_idem]

set_option maxRecDepth 40000 in
/-- Claim C3 counterexample.  A host file consisting of just the begin marker
(and no end marker) breaks idempotence: the first application appends the
block, the second replaces from the stray begin marker on, producing
different bytes. -/
theorem c3_counterexample :
    update_fish_config (some (update_fish_config (some MISE_BLOCK_BEGIN)))
      ≠ update_fish_config (some MISE_BLOCK_BEGIN) := by decide

/-- Claim C3 witness: idempotence at a concrete marker-free host file. -/
theorem c3_witness :
    update_fish_config (some (update_fish_config (some "set -gx EDITOR nvim\n".toList)))
      = update_fish_config (some "set -gx EDITOR nvim\n".toList) :=
  c3_amended _ (Or.inl ⟨by decide, by decide⟩)

/-- Claim C6, confirmed.  For a host file containing both markers (with the
first end marker after the first begin marker, so that the replaced byte
range exists), the upsert replaces exactly the range from the begin marker
through the end marker with the block, keeps every byte before the begin
marker, keeps the bytes after the end marker except that leading newlines
are collapsed, and leaves exactly one newline at the boundary after the
block (the remainder never starts with a newline), so repeated replacements
cannot accumulate blank lines. -/
theorem c6_replace (text pre rest mid post : List Char)
    (h1 : splitOnce MISE_BLOCK_BEGIN text = some (pre, rest))
    (h2 : splitOnce MISE_BLOCK_END text = some (pre ++ MISE_BLOCK_BEGIN ++ mid, post)) :
    text = pre ++ (MISE_BLOCK_BEGIN ++ mid ++ MISE_BLOCK_END) ++ post
    ∧ update_fish_config (some text) = pre ++ MISE_BLOCK ++ lstripNl post
    ∧ update_fish_config (some text)
        = (pre ++ MISE_BLOCK_BEGIN ++ miseBody ++ MISE_BLOCK_END) ++ '\n' :: lstripNl post
    ∧ (∃ k, post = List.replicate k '\n' ++ lstripNl post)
    ∧ (lstripNl post).head? ≠ some '\n' := by
  have hu := update_both text pre rest _ post h1 h2
  obtain ⟨htext2, hpreE⟩ := splitOnce_some_spec end_ne_nil h2
  refine ⟨?_, hu, ?_, lstripNl_decomp post, lstripNl_head post⟩
  · rw [htext2]
    simp [List.append_assoc]
  · rw [hu]
    simp [MISE_BLOCK, miseBody, List.append_assoc]

/-- Claim C6 witness: the replacement at a concrete host file with content
before the block, a stale body between the markers, and trailing content
separated by a blank line. -/
theorem c6_witness :
    update_fish_config (some c6text)
      = "set -x\n".toList ++ MISE_BLOCK ++ lstripNl "\n\n# user settings\n".toList := by
  have h := c6_replace c6text "set -x\n".toList
    ("\nold body\n# <<< MISE INIT - managed by setup_mise.py\n\n# user settings\n".toList)
    "\nold body\n".toList "\n\n# user settings\n".toList (by decide) (by decide)
  exact h.2.1

/-- Claim C7, confirmed.  For a host file containing neither marker, the
upsert appends the block at the end (adding a newline first when the file
does not end in one), keeps the whole previous content as a verbatim prefix,
and when the file does not already end in a blank line there is exactly one
blank line between the old content and the block. -/
theorem c7_append (text : List Char)
    (hb : splitOnce MISE_BLOCK_BEGIN text = none)
    (he : splitOnce MISE_BLOCK_END text = none) :
    update_fish_config (some text)
      = text ++ (if endsWithNl text then [] else ['\n']) ++ '\n' :: MISE_BLOCK
    ∧ (∃ t, update_fish_config (some text) = text ++ t)
    ∧ ((∀ u, text ≠ u ++ ['\n', '\n']) →
        ∃ core, update_fish_config (some text) = core ++ '\n' :: '\n' :: MISE_BLOCK
          ∧ core.getLast? ≠ some '\n') := by
  have hu := update_noMarkers text hb he
  refine ⟨hu, ⟨_, by rw [hu, List.append_assoc]⟩, ?_⟩
  intro hnoblank
  cases hE : endsWithNl text
  · refine ⟨text, ?_, endsWithNl_false_getLast text hE⟩
    rw [hu]
    simp [hE]
  · have hlast : text.getLast? = some '\n' := (endsWithNl_true_iff text).mp hE
    obtain ⟨u, hu2⟩ := List.getLast?_eq_some_iff.mp hlast
    refine ⟨u, ?_, ?_⟩
    · rw [hu, if_pos hE, hu2]
      simp
    · intro hl
      obtain ⟨u2, hu3⟩ := List.getLast?_eq_some_iff.mp hl
      exact hnoblank u2 (by rw [hu2, hu3]; simp)

/-- Claim C7 witness: appending at a concrete marker-free host file without
a trailing newline. -/
theorem c7_witness :
    update_fish_config (some "alias ll ls".toList)
      = "alias ll ls".toList
          ++ (if endsWithNl "alias ll ls".toList then [] else ['\n'])
          ++ '\n' :: MISE_BLOCK :=
  (c7_append "alias ll ls".toList (by decide) (by decide)).1

/- ===================== claims about backups and the reconciler ===================== -/

/-- Claim C1, corrected (the part that holds: setup.py's symlink reconciler).
For a target occupied by foreign (non-symlink) content with no backup yet,
one reconciliation run moves the occupant to `<target>.backup` and links the
target; every further run (any number of them) leaves the filesystem — in
particular the unique backup — completely unchanged, and the run touches no
path other than the target and its backup path. -/
theorem c1_amended (fs : FS) (s d : String) (es occ : Entry)
    (hs : fs s = some es)
    (hd : fs d = some occ)
    (hocc : ∀ t, occ ≠ Entry.link t)
    (hb : fs (backupPath d) = none) :
    (create_symlink_step fs s d).2 = LinkOutcome.backedUp
    ∧ (create_symlink_step fs s d).1 (backupPath d) = some occ
    ∧ (create_symlink_step fs s d).1 d = some (Entry.link s)
    ∧ (∀ p, p ≠ d → p ≠ backupPath d → (create_symlink_step fs s d).1 p = fs p)
    ∧ (∀ n, runs s d n (create_symlink_step fs s d).1 = (create_symlink_step fs s d).1) := by
  have hstep : create_symlink_step fs s d
      = (fsSet (fsSet fs (backupPath d) (some occ)) d (some (Entry.link s)),
         LinkOutcome.backedUp) := by
    cases occ with
    | link t => exact absurd rfl (hocc t)
    | file a => simp [create_symlink_step, hs, hd, hb]
    | dir a => simp [create_symlink_step, hs, hd, hb]
  set fs1 := fsSet (fsSet fs (backupPath d) (some occ)) d (some (Entry.link s)) with hfs1
  have h2 : fs1 (backupPath d) = some occ := by
    rw [hfs1, fsSet_other _ _ _ _ (backupPath_ne d), fsSet_at]
  have h3 : fs1 d = some (Entry.link s) := by
    rw [hfs1, fsSet_at]
  have h4 : ∀ p, p ≠ d → p ≠ backupPath d → fs1 p = fs p := by
    intro p hpd hpb
    rw [hfs1, fsSet_other _ _ _ _ hpd, fsSet_other _ _ _ _ hpb]
  have hsome : ∃ e, fs1 s = some e := by
    by_cases hsd : s = d
    · refine ⟨Entry.link s, ?_⟩
      calc fs1 s = fs1 d := by rw [hsd]
        _ = some (Entry.link s) := h3
    · by_cases hsb : s = backupPath d
      · refine ⟨occ, ?_⟩
        calc fs1 s = fs1 (backupPath d) := by rw [hsb]
          _ = some occ := h2
      · exact ⟨es, by rw [h4 s hsd hsb, hs]⟩
  obtain ⟨e1, he1⟩ := hsome
  have hfix : create_symlink_step fs1 s d = (fs1, LinkOutcome.linked) := by
    have hself : fsSet fs1 d (some (Entry.link s)) = fs1 := fsSet_self _ _ _ h3
    simp [create_symlink_step, he1, h3, hself]
  have hruns : ∀ n, runs s d n fs1 = fs1 := by
    intro n
    induction n with
    | zero => rfl
    | succ n ih =>
      show runs s d n (create_symlink_step fs1 s d).1 = fs1
      rw [hfix]
      exact ih
  rw [hstep]
  exact ⟨rfl, h2, h3, h4, hruns⟩

/-- Claim C1 witness: one run against a concrete directory occupant creates
the backup and reports BackedUp. -/
theorem c1_witness :
    (create_symlink_step c1fs "repo/ghostty" "cfg/ghostty").2 = LinkOutcome.backedUp
    ∧ (create_symlink_step c1fs "repo/ghostty" "cfg/ghostty").1 (backupPath "cfg/ghostty")
        = some (Entry.dir "old") := by
  have h := c1_amended c1fs "repo/ghostty" "cfg/ghostty" (Entry.dir "src") (Entry.dir "old")
    rfl rfl (by intro t ht; exact Entry.noConfusion ht) rfl
  exact ⟨h.1, h.2.1⟩

/-- Claim C1 counterexample.  setup_astronvim.py's `backup_existing` names
backups with a timestamp: two consecutive runs against the occupied nvim
path create two backups of that path (the original config and then the
cloned checkout), so the program does not create at most one backup per
path. -/
theorem c1_counterexample :
    astro_run (astro_run astro_fs0 "nvim" "20240101000000") "nvim" "20240102000000"
        (nvim_backup_path "nvim" "20240101000000") = some (Entry.dir "user-config")
    ∧ astro_run (astro_run astro_fs0 "nvim" "20240101000000") "nvim" "20240102000000"
        (nvim_backup_path "nvim" "20240102000000") = some (Entry.dir "AstroNvim")
    ∧ nvim_backup_path "nvim" "20240101000000" ≠ nvim_backup_path "nvim" "20240102000000" := by
  exact ⟨rfl, rfl, by decide⟩

/-- Claim C2, corrected.  With a backup already present: a regular-file
occupant is removed, the existing backup is left untouched, the outcome is
AlreadyBackedUp and the symlink is created at the target; but a directory
occupant makes `dst.unlink()` raise, the mapping fails, and the filesystem
(occupant and backup included) is left completely unchanged — no symlink is
created. -/
theorem c2_amended :
    (∀ (fs : FS) (s d a : String) (es : Entry),
       fs s = some es → fs d = some (Entry.file a) → (fs (backupPath d)).isSome = true →
       create_symlink_step fs s d
           = (fsSet fs d (some (Entry.link s)), LinkOutcome.alreadyBackedUp)
         ∧ (fsSet fs d (some (Entry.link s))) (backupPath d) = fs (backupPath d)
         ∧ (fsSet fs d (some (Entry.link s))) d = some (Entry.link s))
    ∧ (∀ (fs : FS) (s d a : String) (es : Entry),
       fs s = some es → fs d = some (Entry.dir a) → (fs (backupPath d)).isSome = true →
       create_symlink_step fs s d = (fs, LinkOutcome.failed)) := by
  constructor
  · intro fs s d a es hs hd hbk
    refine ⟨by simp [create_symlink_step, hs, hd, hbk], ?_, fsSet_at _ _ _⟩
    exact fsSet_other _ _ _ _ (backupPath_ne d)
  · intro fs s d a es hs hd hbk
    simp [create_symlink_step, hs, hd, hbk]

/-- Claim C2 witness: the file-occupant branch at a concrete filesystem. -/
theorem c2_witness :
    create_symlink_step c2fs_file "repo/starship" "home/starship"
      = (fsSet c2fs_file "home/starship" (some (Entry.link "repo/starship")),
         LinkOutcome.alreadyBackedUp) := by
  have h := c2_amended.1 c2fs_file "repo/starship" "home/starship" "foreign"
    (Entry.dir "src") rfl rfl rfl
  exact h.1

/-- Claim C2 counterexample.  A directory occupant whose backup path is
already occupied: the claim says the occupant is removed and the symlink
created, but the code's `dst.unlink()` raises on a directory, the mapping
fails and nothing changes. -/
theorem c2_counterexample :
    create_symlink_step c2fs_dir "repo/fish" "home/fish" = (c2fs_dir, LinkOutcome.failed)
    ∧ c2fs_dir "home/fish" = some (Entry.dir "foreign")
    ∧ c2fs_dir (backupPath "home/fish") = some (Entry.file "oldbackup") := by
  exact ⟨rfl, rfl, rfl⟩

/-- Claim C5, corrected.  The reconciler attempts every mapping (one outcome
per mapping, in order) and its aggregate success flag is true exactly when
no mapping raised (outcome `failed`); but a mapping with a missing source is
skipped with a warning and does not count as a failed mapping — the
aggregate stays true. -/
theorem c5_amended (fs : FS) (maps : List (String × String)) :
    (create_symlinks fs maps).outcomes.length = maps.length
    ∧ ((create_symlinks fs maps).ok = true
        ↔ ∀ oc ∈ (create_symlinks fs maps).outcomes, oc ≠ LinkOutcome.failed) := by
  induction maps generalizing fs with
  | nil => simp [create_symlinks]
  | cons sd rest ih =>
    obtain ⟨s, d⟩ := sd
    obtain ⟨ih1, ih2⟩ := ih (create_symlink_step fs s d).1
    constructor
    · simp [create_symlinks, ih1]
    · by_cases hf : (create_symlink_step fs s d).2 = LinkOutcome.failed
      · simp [create_symlinks, hf]
      · simp [create_symlinks, hf, ih2]

/-- Claim C5 witness: the batch of one mapping yields one outcome. -/
theorem c5_witness :
    (create_symlinks (fun _ => none) [("repo/a", "home/a")]).outcomes.length = 1 := by
  have h := c5_amended (fun _ => none) [("repo/a", "home/a")]
  exact h.1

/-- Claim C5 counterexample.  A single mapping whose source is missing: the
outcome is MissingSource, yet the aggregate success flag is true — so a
missing source does not count as a failed mapping, contradicting the claim
that the aggregate is false whenever a mapping has a missing source. -/
theorem c5_counterexample :
    (create_symlinks (fun _ => none) [("repo/a", "home/a")]).ok = true
    ∧ (create_symlinks (fun _ => none) [("repo/a", "home/a")]).outcomes
        = [LinkOutcome.missingSource] := by
  exact ⟨rfl, rfl⟩

/-- Claim C8, confirmed.  A mapping whose source does not exist changes
nothing at all (in particular neither the destination nor any backup of it),
reports MissingSource, and the batch goes on to process the remaining
mappings exactly as it would without that mapping. -/
theorem c8_skip (fs : FS) (s d : String) (rest : List (String × String))
    (h : fs s = none) :
    create_symlink_step fs s d = (fs, LinkOutcome.missingSource)
    ∧ (create_symlinks fs ((s, d) :: rest)).fs = (create_symlinks fs rest).fs
    ∧ (create_symlinks fs ((s, d) :: rest)).outcomes
        = LinkOutcome.missingSource :: (create_symlinks fs rest).outcomes
    ∧ (create_symlinks fs ((s, d) :: rest)).ok = (create_symlinks fs rest).ok := by
  have hstep : create_symlink_step fs s d = (fs, LinkOutcome.missingSource) := by
    simp [create_symlink_step, h]
  refine ⟨hstep, ?_, ?_, ?_⟩ <;> simp [create_symlinks, hstep]

/-- Claim C8 witness: a concrete missing-source mapping is skipped. -/
theorem c8_witness :
    create_symlink_step (fun _ => none) "repo/nvim" "home/nvim"
      = ((fun _ => none), LinkOutcome.missingSource) :=
  (c8_skip (fun _ => none) "repo/nvim" "home/nvim" [] rfl).1

/- ===================== claims about the step pipeline and exit codes ===================== -/

/-- Claim C4, corrected.  setup_mise.py does exit 2 when verification fails
after an otherwise-successful run (and 0 on success, 1 when mise is
missing); but setup.py's main never returns 2: it returns 1 when a required
step (CLT, Homebrew, config directory) fails and 0 otherwise, ignoring the
result of the final verification. -/
theorem c4_amended :
    (∀ y cy : Bool, setup_mise_main y cy true false = if !y && !cy then 0 else 2)
    ∧ (∀ y cy m v : Bool, ((y || cy) && m && v) = true → setup_mise_main y cy m v = 0)
    ∧ (∀ y cy v : Bool, (y || cy) = true → setup_mise_main y cy false v = 1)
    ∧ (∀ c b g l f h v : Bool,
        (setup_main c b g l f h v).exitCode = if c && b && g then 0 else 1) := by
  refine ⟨?_, ?_, ?_, ?_⟩
  · intro y cy
    cases y <;> cases cy <;> rfl
  · intro y cy m v hok
    cases y <;> cases cy <;> cases m <;> cases v <;> simp_all [setup_mise_main]
  · intro y cy v hok
    cases y <;> cases cy <;> cases v <;> simp_all [setup_mise_main]
  · intro c b g l f h v
    cases c <;> cases b <;> cases g <;> rfl

/-- Claim C4 witness: verification failure after a successful setup_mise run
exits with code 2. -/
theorem c4_witness : setup_mise_main true true true false = 2 := by
  have h := c4_amended.1 true true
  simpa using h

/-- Claim C4 counterexample.  In setup.py, a run in which every step
succeeds but the final verification reports failure exits with code 0, not
2: main discards the result of verify_installation. -/
theorem c4_counterexample :
    (setup_main true true true true true true false).exitCode = 0
    ∧ (setup_main true true true true true true false).exitCode ≠ 2 := by
  exact ⟨rfl, by decide⟩

/-- Claim C9, confirmed.  In setup.py's hardcoded step pipeline a required
step failure stops the run at that step (the executed list is exactly the
prefix through the failing step and the exit code is 1, so no later step
runs), while optional step failures leave all seven steps executed, are
recorded as warnings (membership in the degraded list), and the run
completes with exit code 0. -/
theorem c9_pipeline (c b g l f h v : Bool) :
    (c = false → setup_main c b g l f h v = ⟨["install_xcode_clt"], [], 1⟩)
    ∧ (c = true → b = false →
        setup_main c b g l f h v = ⟨["install_xcode_clt", "install_homebrew"], [], 1⟩)
    ∧ (c = true → b = true → g = false →
        setup_main c b g l f h v
          = ⟨["install_xcode_clt", "install_homebrew", "create_config_structure"], [], 1⟩)
    ∧ (c = true → b = true → g = true →
        (setup_main c b g l f h v).executed
            = ["install_xcode_clt", "install_homebrew", "create_config_structure",
               "create_symlinks", "install_brewfile", "setup_fish_shell",
               "verify_installation"]
          ∧ (setup_main c b g l f h v).exitCode = 0
          ∧ (l = false → "create_symlinks" ∈ (setup_main c b g l f h v).degraded)
          ∧ (f = false → "install_brewfile" ∈ (setup_main c b g l f h v).degraded)
          ∧ (h = false → "setup_fish_shell" ∈ (setup_main c b g l f h v).degraded)
          ∧ (v = false → "verify_installation" ∈ (setup_main c b g l f h v).degraded)) := by
  refine ⟨?_, ?_, ?_, ?_⟩
  · rintro rfl
    rfl
  · rintro rfl rfl
    rfl
  · rintro rfl rfl rfl
    rfl
  · rintro rfl rfl rfl
    refine ⟨rfl, rfl, ?_, ?_, ?_, ?_⟩
    · rintro rfl; cases f <;> cases h <;> cases v <;> decide
    · rintro rfl; cases l <;> cases h <;> cases v <;> decide
    · rintro rfl; cases l <;> cases f <;> cases v <;> decide
    · rintro rfl; cases l <;> cases f <;> cases h <;> decide

/-- Claim C9 witness: with the second (required) step failing, the pipeline
aborts after it and the optional steps never run. -/
theorem c9_witness :
    setup_main true false true true true true true
      = ⟨["install_xcode_clt", "install_homebrew"], [], 1⟩ :=
  (c9_pipeline true false true true true true true).2.1 rfl rfl

/-- Claim C10, confirmed.  When the Brewfile exists and the brew bundle
command executes at all, install_brewfile returns true whatever the exit
code and output; it returns false only when the Brewfile is absent or the
execution raises. -/
theorem c10_brewfile :
    (∀ r, install_brewfile false r = false)
    ∧ install_brewfile true none = false
    ∧ (∀ (code : Nat) (out : String), install_brewfile true (some (code, out)) = true) := by
  refine ⟨fun r => rfl, rfl, fun code out => ?_⟩
  by_cases hc : code = 0 <;> simp [install_brewfile, hc]
